import Mathlib

/-!
Verification development for the activity-stream ingestion service.

Each section shallowly embeds one part of the Python source
(`core/app/app_elasticsearch.py`, `core/app/app_outgoing.py`,
`core/app/app_utils.py`, `core/app.py`) as executable Lean definitions and
proves the stated properties about them.
-/

namespace ActivityStream

/-! ## A model of JSON values and of `json.dumps(..., sort_keys=True)`

`es_bulk` in `core/app/app_elasticsearch.py` serialises each bulk item with
`json.dumps(item['action_and_metadata'], sort_keys=True)` and likewise for
`item['source']`.  JSON numbers are modelled as integers (no float lives in
any property proved here); object members keep their insertion order in the
`obj` constructor, and the serialiser sorts keys exactly as `sort_keys=True`
does. -/

inductive Json where
  | str (s : String)
  | num (n : Int)
  | jbool (b : Bool)
  | null
  | arr (elems : List Json)
  | obj (members : List (String × Json))

/-- Hex digit characters, lowercase, as produced by Python escapes. -/
def hexDigit (n : Nat) : Char :=
  if n < 10 then Char.ofNat (48 + n) else Char.ofNat (87 + n)

/-- Escape of a single character inside a JSON string literal, following
`json.dumps` (the printable-ASCII identity cases and the control escapes;
non-ASCII passthrough differs from `ensure_ascii` only on characters that are
not involved in any property below). -/
def escapeChar (c : Char) : String :=
  if c = '"' then "\\\""
  else if c = '\\' then "\\\\"
  else if c = '\n' then "\\n"
  else if c = '\r' then "\\r"
  else if c = '\t' then "\\t"
  else if c.toNat < 32 then
    String.mk ['\\', 'u', '0', '0', hexDigit (c.toNat / 16), hexDigit (c.toNat % 16)]
  else String.singleton c

/-- Concatenation of a list of strings (`''.join` style). -/
def concatStrs : List String → String
  | [] => ""
  | s :: rest => s ++ concatStrs rest

def escapeStr (s : String) : String :=
  concatStrs (s.data.map escapeChar)

def quoteStr (s : String) : String :=
  "\"" ++ escapeStr s ++ "\""

/-- Decimal digits of a natural number, most significant first. -/
def natDigits (n : Nat) : List Char :=
  if _h : n < 10 then [hexDigit n]
  else natDigits (n / 10) ++ [hexDigit (n % 10)]
  termination_by n
  decreasing_by exact Nat.div_lt_self (by omega) (by omega)

def intRepr (i : Int) : String :=
  if i < 0 then "-" ++ String.mk (natDigits i.natAbs) else String.mk (natDigits i.toNat)

/-- Key order used by `sort_keys=True`: lexicographic string comparison on the
first component of an already-rendered `(key, rendered value)` pair. -/
def keyLe (a b : String × String) : Prop := a.1 ≤ b.1

instance : DecidableRel keyLe := fun a b => inferInstanceAs (Decidable (a.1 ≤ b.1))

/-- Render one sorted `(key, rendered value)` pair. -/
def renderPair (kv : String × String) : String :=
  quoteStr kv.1 ++ ": " ++ kv.2

/-- `', '.join(...)`. -/
def joinComma : List String → String
  | [] => ""
  | [s] => s
  | s :: rest => s ++ ", " ++ joinComma rest

mutual

/-- `json.dumps(v, sort_keys=True)` with the default separators `', '` and
`': '`: each object's members are rendered and then emitted in sorted key
order (rendering a value never looks at its position, so sorting the rendered
pairs agrees with sorting before rendering). -/
def json_dumps : Json → String
  | .str s => quoteStr s
  | .num n => intRepr n
  | .jbool b => if b then "true" else "false"
  | .null => "null"
  | .arr elems => "[" ++ joinComma (dumpsElems elems) ++ "]"
  | .obj members =>
      "\x7b" ++ joinComma ((List.insertionSort keyLe (dumpsMembers members)).map renderPair) ++ "\x7d"

def dumpsElems : List Json → List String
  | [] => []
  | j :: rest => json_dumps j :: dumpsElems rest

def dumpsMembers : List (String × Json) → List (String × String)
  | [] => []
  | (k, v) :: rest => (k, json_dumps v) :: dumpsMembers rest

end

/-- `'\n'.join(...)` (Python `str.join` semantics). -/
def joinNl : List String → String
  | [] => ""
  | [s] => s
  | s :: rest => s ++ "\n" ++ joinNl rest

/-- `flatten` from `core/app/app_utils.py`. -/
def flatten {α : Type} (list_to_flatten : List (List α)) : List α :=
  match list_to_flatten with
  | [] => []
  | sublist :: rest => sublist ++ flatten rest

/-- One element of the `items` argument of `es_bulk`. -/
structure BulkItem where
  action_and_metadata : Json
  source : Json

/-- The body built by `es_bulk` in `core/app/app_elasticsearch.py` for a
non-empty item list (the function returns early, POSTing nothing, on empty
input):
`('\n'.join(flatten([[dumps(action), dumps(source)] for item in items])) + '\n')`. -/
def es_bulk (items : List BulkItem) : String :=
  joinNl (flatten (items.map fun item =>
    [json_dumps item.action_and_metadata, json_dumps item.source])) ++ "\n"

/-- Number of newline bytes in a string. -/
def nlCount (s : String) : Nat := s.data.count '\n'

theorem nlCount_append (a b : String) : nlCount (a ++ b) = nlCount a + nlCount b := by
  simp [nlCount, String.data_append, List.count_append]

theorem nlCount_join (l : List String) (h : l ≠ []) :
    nlCount (joinNl l) = (l.map nlCount).sum + (l.length - 1) := by
  induction l with
  | nil => simp at h
  | cons s rest ih =>
    cases rest with
    | nil => simp [joinNl]
    | cons t rest' =>
      have hne : t :: rest' ≠ [] := by simp
      calc nlCount (joinNl (s :: t :: rest'))
          = nlCount s + (1 + nlCount (joinNl (t :: rest'))) := by
            simp [joinNl, nlCount_append]
            simp [nlCount]
            omega
        _ = nlCount s + (1 + (((t :: rest').map nlCount).sum + ((t :: rest').length - 1))) := by
            rw [ih hne]
        _ = ((s :: t :: rest').map nlCount).sum + ((s :: t :: rest').length - 1) := by
            simp [List.map_cons, List.sum_cons]
            omega

theorem hexDigit_ne_nl : ∀ n : Nat, n < 16 → hexDigit n ≠ '\n' := by decide

theorem mem_data_append (c : Char) (a b : String) :
    c ∈ (a ++ b).data ↔ c ∈ a.data ∨ c ∈ b.data := by
  simp [String.data_append]

theorem escapeChar_no_nl (c : Char) : '\n' ∉ (escapeChar c).data := by
  unfold escapeChar
  split_ifs with h1 h2 h3 h4 h5 h6
  · decide
  · decide
  · decide
  · decide
  · decide
  · have hd1 : c.toNat / 16 < 16 := by omega
    have hd2 : c.toNat % 16 < 16 := by omega
    simp only [String.mk]
    intro hmem
    simp only [List.mem_cons, List.not_mem_nil, or_false] at hmem
    rcases hmem with h | h | h | h | h | h
    · exact absurd h.symm (by decide)
    · exact absurd h.symm (by decide)
    · exact absurd h.symm (by decide)
    · exact absurd h.symm (by decide)
    · exact hexDigit_ne_nl _ hd1 h.symm
    · exact hexDigit_ne_nl _ hd2 h.symm
  · intro hmem
    have hdata : (String.singleton c).data = [c] := rfl
    rw [hdata] at hmem
    simp only [List.mem_cons, List.not_mem_nil, or_false] at hmem
    exact h3 hmem.symm

theorem concatStrs_no_nl (l : List String) (h : ∀ s ∈ l, '\n' ∉ s.data) :
    '\n' ∉ (concatStrs l).data := by
  induction l with
  | nil => simp [concatStrs]
  | cons s rest ih =>
    simp only [concatStrs, mem_data_append]
    rintro (hs | hr)
    · exact h s (by simp) hs
    · exact ih (fun t ht => h t (by simp [ht])) hr

theorem escapeStr_no_nl (s : String) : '\n' ∉ (escapeStr s).data := by
  refine concatStrs_no_nl _ ?_
  intro t ht
  rcases List.mem_map.mp ht with ⟨c, _, rfl⟩
  exact escapeChar_no_nl c

theorem quoteStr_no_nl (s : String) : '\n' ∉ (quoteStr s).data := by
  simp only [quoteStr, mem_data_append]
  rintro ((h | h) | h)
  · exact absurd h (by decide)
  · exact escapeStr_no_nl s h
  · exact absurd h (by decide)

theorem natDigits_no_nl (n : Nat) : '\n' ∉ natDigits n := by
  induction n using Nat.strong_induction_on with
  | _ n ih =>
    unfold natDigits
    split
    · intro hmem
      simp only [List.mem_cons, List.not_mem_nil, or_false] at hmem
      exact hexDigit_ne_nl n (by omega) hmem.symm
    · intro hmem
      rcases List.mem_append.mp hmem with h | h
      · exact ih (n / 10) (Nat.div_lt_self (by omega) (by omega)) h
      · simp only [List.mem_cons, List.not_mem_nil, or_false] at h
        exact hexDigit_ne_nl (n % 10) (by omega) h.symm

theorem intRepr_no_nl (i : Int) : '\n' ∉ (intRepr i).data := by
  unfold intRepr
  split
  · simp only [mem_data_append]
    rintro (h | h)
    · exact absurd h (by decide)
    · exact natDigits_no_nl _ h
  · exact natDigits_no_nl _

theorem joinComma_no_nl (l : List String) (h : ∀ s ∈ l, '\n' ∉ s.data) :
    '\n' ∉ (joinComma l).data := by
  induction l with
  | nil => simp [joinComma]
  | cons s rest ih =>
    cases rest with
    | nil => exact h s (by simp)
    | cons t rest' =>
      simp only [joinComma, mem_data_append]
      rintro ((hs | hc) | hr)
      · exact h s (by simp) hs
      · exact absurd hc (by decide)
      · exact ih (fun u hu => h u (by simp [List.mem_cons] at hu ⊢; tauto)) hr

theorem renderPair_no_nl (kv : String × String) (h : '\n' ∉ kv.2.data) :
    '\n' ∉ (renderPair kv).data := by
  simp only [renderPair, mem_data_append]
  rintro ((hq | hc) | hv)
  · exact quoteStr_no_nl _ hq
  · exact absurd hc (by decide)
  · exact h hv

mutual

theorem json_dumps_no_nl : (j : Json) → '\n' ∉ (json_dumps j).data
  | .str s => quoteStr_no_nl s
  | .num n => intRepr_no_nl n
  | .jbool b => by cases b <;> simp [json_dumps]
  | .null => by simp only [json_dumps]; decide
  | .arr elems => by
      have helems := dumpsElems_no_nl elems
      simp only [json_dumps, mem_data_append]
      rintro ((hb | hj) | hb)
      · exact absurd hb (by decide)
      · exact joinComma_no_nl _ helems hj
      · exact absurd hb (by decide)
  | .obj members => by
      have hmem := dumpsMembers_no_nl members
      simp only [json_dumps, mem_data_append]
      rintro ((hb | hj) | hb)
      · exact absurd hb (by decide)
      · refine joinComma_no_nl _ ?_ hj
        intro s hs
        rcases List.mem_map.mp hs with ⟨kv, hkv, rfl⟩
        have hkv' : kv ∈ dumpsMembers members :=
          ((List.perm_insertionSort keyLe (dumpsMembers members)).mem_iff).mp hkv
        exact renderPair_no_nl kv (hmem kv hkv')
      · exact absurd hb (by decide)

theorem dumpsElems_no_nl : (l : List Json) → ∀ s ∈ dumpsElems l, '\n' ∉ s.data
  | [] => by simp [dumpsElems]
  | j :: rest => by
      have hj := json_dumps_no_nl j
      have hrest := dumpsElems_no_nl rest
      simp only [dumpsElems, List.mem_cons]
      rintro s (rfl | hs)
      · exact hj
      · exact hrest s hs

theorem dumpsMembers_no_nl : (l : List (String × Json)) → ∀ kv ∈ dumpsMembers l, '\n' ∉ kv.2.data
  | [] => by simp [dumpsMembers]
  | (k, v) :: rest => by
      have hv := json_dumps_no_nl v
      have hrest := dumpsMembers_no_nl rest
      simp only [dumpsMembers, List.mem_cons]
      rintro kv (rfl | hkv)
      · exact hv
      · exact hrest kv hkv

end

theorem nlCount_json_dumps (j : Json) : nlCount (json_dumps j) = 0 :=
  List.count_eq_zero.mpr (json_dumps_no_nl j)

theorem flatten_pair_length {α β : Type} (l : List α) (f g : α → β) :
    (flatten (l.map fun x => [f x, g x])).length = 2 * l.length := by
  induction l with
  | nil => simp [flatten]
  | cons x rest ih => simp [flatten, ih]; omega

theorem mem_flatten_pair {α β : Type} (l : List α) (f g : α → β) (y : β)
    (hy : y ∈ flatten (l.map fun x => [f x, g x])) :
    ∃ x ∈ l, y = f x ∨ y = g x := by
  induction l with
  | nil => simp [flatten] at hy
  | cons x rest ih =>
    simp only [List.map_cons, flatten, List.mem_append, List.mem_cons, List.not_mem_nil,
      or_false] at hy
    rcases hy with (h | h) | h
    · exact ⟨x, by simp, Or.inl h⟩
    · exact ⟨x, by simp, Or.inr h⟩
    · rcases ih h with ⟨x', hx', hor⟩
      exact ⟨x', by simp [hx'], hor⟩

instance : IsTotal (String × String) keyLe := ⟨fun a b => le_total a.1 b.1⟩

instance : IsTrans (String × String) keyLe := ⟨fun _ _ _ h1 h2 => le_trans h1 h2⟩

/-- The key order in which `json_dumps` emits the members of an object. -/
def emittedKeys (members : List (String × Json)) : List String :=
  (List.insertionSort keyLe (dumpsMembers members)).map Prod.fst

/-- C1, counterexample: for a single bulk item (n = 1) the body emitted by
`es_bulk` contains 2 newlines, not `2 * 1 + 1 = 3` as the claim states. -/
theorem es_bulk_newline_counterexample :
    nlCount (es_bulk [⟨Json.null, Json.null⟩]) = 2
    ∧ ¬ (nlCount (es_bulk [⟨Json.null, Json.null⟩]) = 2 * 1 + 1) := by
  have hbody : es_bulk [⟨Json.null, Json.null⟩] = "null\nnull\n" := by
    simp [es_bulk, flatten, joinNl, json_dumps]
  rw [hbody]
  constructor
  · decide
  · decide

/-- C1 (amended): for every non-empty list of `n` bulk items, the body emitted
by `es_bulk` has exactly `2n` newlines (the claim's `2n + 1` overcounts by
one), ends with a trailing newline, and every JSON object — in particular
every `action_and_metadata` and `source` — is serialised with its keys in
sorted order. -/
theorem es_bulk_body_format (items : List BulkItem) (h : items ≠ []) :
    nlCount (es_bulk items) = 2 * items.length
    ∧ (es_bulk items).data.getLast? = some '\n'
    ∧ ∀ members : List (String × Json),
        List.Sorted (fun a b : String => a ≤ b) (emittedKeys members) := by
  refine ⟨?_, ?_, ?_⟩
  · have hlines : ∀ s ∈ flatten (items.map fun item =>
        [json_dumps item.action_and_metadata, json_dumps item.source]), nlCount s = 0 := by
      intro s hs
      rcases mem_flatten_pair items _ _ s hs with ⟨it, _, rfl | rfl⟩
      · exact nlCount_json_dumps _
      · exact nlCount_json_dumps _
    have hne : flatten (items.map fun item =>
        [json_dumps item.action_and_metadata, json_dumps item.source]) ≠ [] := by
      intro hnil
      have hlen := flatten_pair_length items
        (fun item => json_dumps item.action_and_metadata) (fun item => json_dumps item.source)
      rw [hnil] at hlen
      simp only [List.length_nil] at hlen
      exact h (List.length_eq_zero.mp (by omega))
    rw [es_bulk, nlCount_append, nlCount_join _ hne]
    have hsum : ((flatten (items.map fun item =>
        [json_dumps item.action_and_metadata, json_dumps item.source])).map nlCount).sum = 0 := by
      refine List.sum_eq_zero ?_
      intro x hx
      rcases List.mem_map.mp hx with ⟨s, hs, rfl⟩
      exact hlines s hs
    rw [hsum, flatten_pair_length items]
    have hpos : 0 < 2 * items.length := by
      rcases items with _ | ⟨a, l⟩
      · exact absurd rfl h
      · simp only [List.length_cons]
        omega
    have hone : nlCount "\n" = 1 := by decide
    rw [hone]
    omega
  · rw [es_bulk]
    have hdata : (joinNl (flatten (items.map fun item =>
        [json_dumps item.action_and_metadata, json_dumps item.source])) ++ "\n").data
        = (joinNl (flatten (items.map fun item =>
            [json_dumps item.action_and_metadata, json_dumps item.source]))).data ++ ['\n'] := by
      simp [String.data_append]
    rw [hdata, List.getLast?_concat]
  · intro members
    have hsorted := List.sorted_insertionSort keyLe (dumpsMembers members)
    rw [emittedKeys, List.Sorted, List.pairwise_map]
    exact hsorted

/-- Witness for C1's amended theorem at a concrete non-empty item list. -/
theorem es_bulk_body_format_witness :
    ([⟨Json.null, Json.null⟩] : List BulkItem) ≠ []
    ∧ (nlCount (es_bulk [⟨Json.null, Json.null⟩])
          = 2 * ([⟨Json.null, Json.null⟩] : List BulkItem).length
        ∧ (es_bulk [⟨Json.null, Json.null⟩]).data.getLast? = some '\n'
        ∧ ∀ members : List (String × Json),
            List.Sorted (fun a b : String => a ≤ b) (emittedKeys members)) :=
  ⟨by simp, es_bulk_body_format [⟨Json.null, Json.null⟩] (by simp)⟩

/-! ## Alias flip (`add_remove_aliases_atomically`, `core/app/app_elasticsearch.py`)

The function issues a single `POST /_aliases` request whose JSON payload holds
both the remove-by-pattern and the add action. -/

def ALIAS : String := "activities"

structure EsRequest where
  method : String
  path : String
  payload : Json

/-- The request(s) issued by `add_remove_aliases_atomically`: one POST to
`/_aliases` whose body is
`{'actions': [{'remove': {'index': remove_pattern, 'alias': ALIAS}},
              {'add': {'index': index_name, 'alias': ALIAS}}]}` with
`remove_pattern = f'{ALIAS}__feed_id_{feed_unique_id}__*'`. -/
def add_remove_aliases_atomically (index_name feed_unique_id : String) : List EsRequest :=
  let remove_pattern := ALIAS ++ "__feed_id_" ++ feed_unique_id ++ "__*"
  [⟨"POST", "/_aliases",
    Json.obj [("actions", Json.arr
      [Json.obj [("remove", Json.obj [("index", Json.str remove_pattern),
          ("alias", Json.str ALIAS)])],
       Json.obj [("add", Json.obj [("index", Json.str index_name),
          ("alias", Json.str ALIAS)])]])]⟩]

/-- C3: for every feed id and every new index name, the cutover is exactly one
`_aliases` request whose action list is the remove of pattern
`activities__feed_id_<id>__*` from alias `activities` together with the add of
the new index to that alias, in that single request. -/
theorem add_remove_aliases_single_request (index_name feed_unique_id : String) :
    ∃ req : EsRequest,
      add_remove_aliases_atomically index_name feed_unique_id = [req]
      ∧ req.method = "POST"
      ∧ req.path = "/_aliases"
      ∧ req.payload = Json.obj [("actions", Json.arr
          [Json.obj [("remove", Json.obj
              [("index", Json.str ("activities__feed_id_" ++ feed_unique_id ++ "__*")),
               ("alias", Json.str "activities")])],
           Json.obj [("add", Json.obj
              [("index", Json.str index_name),
               ("alias", Json.str "activities")])]])] := by
  exact ⟨_, rfl, rfl, rfl, rfl⟩

/-! ## Full ingest (`ingest_feed_full`, `core/app/app_outgoing.py`)

`ingest_feed_full` awaits, in order: `set_feed_updates_seed_url_init`,
`get_old_index_names`, `delete_indexes` (scrub of the feed's non-aliased
indexes), `create_index`, the page loop (`ingest_feed_page` then `sleep`,
until `next_href` is empty), `refresh_index`, `add_remove_aliases_atomically`
and finally `set_feed_updates_seed_url`.  An exception at any step propagates
out of the coroutine immediately (the `logged`/`metric_timer` context managers
re-raise), so no later call is made in that run.  The interpreter below runs
those steps against an environment that fixes which awaits succeed, and
returns the operation trace together with the step the run failed at, if
any. -/

inductive Op where
  | setSeedInit
  | listIdx
  | deleteIdx
  | createIdx (name : String)
  | bulkPage
  | pageSleep
  | refreshIdx (name : String)
  | aliasFlip (name : String)
  | setSeed
deriving DecidableEq

inductive StepTag where
  | initStep
  | listStep
  | deleteStep
  | createStep
  | pageStep
  | refreshStep
  | aliasStep
  | seedStep
deriving DecidableEq

structure FullEnv where
  initOk : Bool
  listOk : Bool
  deleteOk : Bool
  createOk : Bool
  pages : List Bool
  refreshOk : Bool
  aliasOk : Bool
  setSeedOk : Bool
  newIndexName : String

/-- The page loop of `ingest_feed_full`: each successful `ingest_feed_page`
pushes one bulk request and then sleeps `polling_page_interval`; a raising
page fetch aborts the loop (and the run). -/
def pageLoop : List Bool → List Op × Bool
  | [] => ([], true)
  | pageOk :: rest =>
      if pageOk then
        let r := pageLoop rest
        (Op.bulkPage :: Op.pageSleep :: r.1, r.2)
      else ([], false)

/-- One run of `ingest_feed_full` under `env`: the trace of operations issued
and the step at which the run raised, if any. -/
def ingest_feed_full (env : FullEnv) : List Op × Option StepTag :=
  if env.initOk = false then ([], some StepTag.initStep) else
  if env.listOk = false then ([Op.setSeedInit], some StepTag.listStep) else
  if env.deleteOk = false then ([Op.setSeedInit, Op.listIdx], some StepTag.deleteStep) else
  if env.createOk = false then
    ([Op.setSeedInit, Op.listIdx, Op.deleteIdx], some StepTag.createStep) else
  let prefixOps := [Op.setSeedInit, Op.listIdx, Op.deleteIdx, Op.createIdx env.newIndexName]
  let paged := pageLoop env.pages
  if paged.2 = false then (prefixOps ++ paged.1, some StepTag.pageStep) else
  if env.refreshOk = false then (prefixOps ++ paged.1, some StepTag.refreshStep) else
  let refreshed := prefixOps ++ paged.1 ++ [Op.refreshIdx env.newIndexName]
  if env.aliasOk = false then (refreshed, some StepTag.aliasStep) else
  let flipped := refreshed ++ [Op.aliasFlip env.newIndexName]
  if env.setSeedOk = false then (flipped, some StepTag.seedStep) else
  (flipped ++ [Op.setSeed], none)

/-- The alias membership for a feed after a trace of operations: only an
`aliasFlip` changes which index is aliased. -/
def aliasAfter (ops : List Op) (live : Option String) : Option String :=
  ops.foldl (fun acc op => match op with
    | Op.aliasFlip name => some name
    | _ => acc) live

theorem pageLoop_no_alias (pages : List Bool) (name : String) :
    Op.aliasFlip name ∉ (pageLoop pages).1 := by
  induction pages with
  | nil => simp [pageLoop]
  | cons pageOk rest ih =>
    by_cases hp : pageOk
    · simp [pageLoop, hp, ih]
    · simp [pageLoop, hp]

theorem aliasAfter_of_no_flip (ops : List Op) (live : Option String)
    (h : ∀ name, Op.aliasFlip name ∉ ops) : aliasAfter ops live = live := by
  induction ops generalizing live with
  | nil => simp [aliasAfter]
  | cons op rest ih =>
    have hop : ∀ name, Op.aliasFlip name ∉ rest := by
      intro name hmem
      exact h name (by simp [hmem])
    cases op with
    | aliasFlip name => exact absurd (by simp) (h name)
    | setSeedInit => exact ih live hop
    | listIdx => exact ih live hop
    | deleteIdx => exact ih live hop
    | createIdx name => exact ih live hop
    | bulkPage => exact ih live hop
    | pageSleep => exact ih live hop
    | refreshIdx name => exact ih live hop
    | setSeed => exact ih live hop

/-- C2: if a full-ingest run raises before the cutover step — at cursor init,
scrub (listing or deleting), index creation, the page loop, or refresh — then
no alias operation appears in the run's trace, so whatever index was live for
the feed stays the aliased one. -/
theorem ingest_feed_full_no_alias_before_cutover (env : FullEnv) (tag : StepTag)
    (hfail : (ingest_feed_full env).2 = some tag)
    (hpre : tag ∈ [StepTag.initStep, StepTag.listStep, StepTag.deleteStep,
      StepTag.createStep, StepTag.pageStep, StepTag.refreshStep]) :
    (∀ name, Op.aliasFlip name ∉ (ingest_feed_full env).1)
    ∧ ∀ live : Option String, aliasAfter (ingest_feed_full env).1 live = live := by
  have hnoflip : ∀ name, Op.aliasFlip name ∉ (ingest_feed_full env).1 := by
    intro name
    unfold ingest_feed_full
    by_cases h1 : env.initOk = false
    · simp [h1]
    · by_cases h2 : env.listOk = false
      · simp [h1, h2]
      · by_cases h3 : env.deleteOk = false
        · simp [h1, h2, h3]
        · by_cases h4 : env.createOk = false
          · simp [h1, h2, h3, h4]
          · by_cases h5 : (pageLoop env.pages).2 = false
            · simp [h1, h2, h3, h4, h5, pageLoop_no_alias]
            · by_cases h6 : env.refreshOk = false
              · simp [h1, h2, h3, h4, h5, h6, pageLoop_no_alias]
              · by_cases h7 : env.aliasOk = false
                · simp [h1, h2, h3, h4, h5, h6, h7, pageLoop_no_alias]
                · exfalso
                  by_cases h8 : env.setSeedOk = false
                  · have : (ingest_feed_full env).2 = some StepTag.aliasStep ∨
                        (ingest_feed_full env).2 = some StepTag.seedStep ∨
                        (ingest_feed_full env).2 = none := by
                      unfold ingest_feed_full
                      simp [h1, h2, h3, h4, h5, h6, h7, h8]
                    rcases this with hh | hh | hh <;> rw [hfail] at hh <;>
                      simp_all
                  · have : (ingest_feed_full env).2 = none := by
                      unfold ingest_feed_full
                      simp [h1, h2, h3, h4, h5, h6, h7, h8]
                    rw [hfail] at this
                    simp at this
  exact ⟨hnoflip, fun live => aliasAfter_of_no_flip _ live hnoflip⟩

/-- Witness for C2 at a run whose refresh fails after two successful pages. -/
theorem ingest_feed_full_no_alias_witness :
    (ingest_feed_full ⟨true, true, true, true, [true, true], false, true, true,
        "activities__feed_id_f1__x__"⟩).2 = some StepTag.refreshStep
    ∧ ((∀ name, Op.aliasFlip name ∉ (ingest_feed_full ⟨true, true, true, true,
          [true, true], false, true, true, "activities__feed_id_f1__x__"⟩).1)
      ∧ ∀ live : Option String, aliasAfter (ingest_feed_full ⟨true, true, true, true,
          [true, true], false, true, true, "activities__feed_id_f1__x__"⟩).1 live = live) :=
  ⟨rfl, ingest_feed_full_no_alias_before_cutover _ StepTag.refreshStep rfl (by decide)⟩

/-! ## Supervisor (`async_repeat_until_cancelled`, `core/app/app_utils.py`)

The loop keeps `num_exceptions_in_chain`: a clean task completion resets it to
0; a non-cancellation exception sleeps
`exception_intervals[min(num_exceptions_in_chain, len(exception_intervals) - 1)]`
and then increments the counter; `asyncio.CancelledError`, whether raised by
the task or while the backoff sleep is in flight, breaks out of the loop.
The interpreter consumes one outcome per loop iteration and emits the
observable events. -/

inductive TaskOutcome where
  | ok
  | cancelled
  | raised (sleepCancelled : Bool)
deriving DecidableEq

inductive SupEvent where
  | ran
  | slept (seconds : Nat)
  | returned
deriving DecidableEq

/-- One run of the supervisor loop over a finite window of task outcomes,
starting with counter `num_exceptions_in_chain = c`.  `raised b` is a task
iteration that raised a non-cancellation exception, with `b` true when the
subsequent backoff sleep was itself interrupted by cancellation. -/
def async_repeat_until_cancelled (exception_intervals : List Nat) :
    Nat → List TaskOutcome → List SupEvent
  | _, [] => []
  | _, TaskOutcome.ok :: rest =>
      SupEvent.ran :: async_repeat_until_cancelled exception_intervals 0 rest
  | _, TaskOutcome.cancelled :: _ => [SupEvent.ran, SupEvent.returned]
  | c, TaskOutcome.raised sleepCancelled :: rest =>
      if sleepCancelled then [SupEvent.ran, SupEvent.returned]
      else SupEvent.ran
        :: SupEvent.slept (exception_intervals.getD
              (min c (exception_intervals.length - 1)) 0)
        :: async_repeat_until_cancelled exception_intervals (c + 1) rest

/-- Outcome windows that contain no cancellation (the loop is still live). -/
def noCancel (outcomes : List TaskOutcome) : Prop :=
  ∀ o ∈ outcomes, o = TaskOutcome.ok ∨ o = TaskOutcome.raised false

instance noCancelDecidable (outcomes : List TaskOutcome) : Decidable (noCancel outcomes) :=
  List.decidableBAll _ outcomes

/-- The value of `num_exceptions_in_chain` after processing a window of
outcomes, starting from `c`. -/
def counterAfter (c : Nat) : List TaskOutcome → Nat
  | [] => c
  | TaskOutcome.ok :: rest => counterAfter 0 rest
  | TaskOutcome.cancelled :: _ => c
  | TaskOutcome.raised _ :: rest => counterAfter (c + 1) rest

theorem async_repeat_append (s : List Nat) (pre : List TaskOutcome)
    (hpre : noCancel pre) (c : Nat) (rest : List TaskOutcome) :
    async_repeat_until_cancelled s c (pre ++ rest)
      = async_repeat_until_cancelled s c pre
        ++ async_repeat_until_cancelled s (counterAfter c pre) rest := by
  induction pre generalizing c with
  | nil => simp [async_repeat_until_cancelled, counterAfter]
  | cons o pre' ih =>
    have hpre' : noCancel pre' := fun x hx => hpre x (by simp [hx])
    have happ : pre'.append rest = pre' ++ rest := rfl
    rcases hpre o (by simp) with rfl | rfl
    · simp only [List.cons_append, async_repeat_until_cancelled, counterAfter]
      rw [happ, ih hpre' 0]
    · simp only [List.cons_append, async_repeat_until_cancelled, counterAfter,
        if_neg Bool.false_ne_true]
      rw [happ, ih hpre' (c + 1)]

theorem counterAfter_append (c : Nat) (pre rest : List TaskOutcome) (hpre : noCancel pre) :
    counterAfter c (pre ++ rest) = counterAfter (counterAfter c pre) rest := by
  induction pre generalizing c with
  | nil => simp [counterAfter]
  | cons o pre' ih =>
    have hpre' : noCancel pre' := fun x hx => hpre x (by simp [hx])
    rcases hpre o (by simp) with rfl | rfl
    · simp only [List.cons_append, counterAfter]
      exact ih 0 hpre'
    · simp only [List.cons_append, counterAfter]
      exact ih (c + 1) hpre'

/-- C4: with backoff schedule `s`, after the k-th consecutive failure (a
window `pre` with `k - 1` trailing failures followed by another failing
iteration) the supervisor sleeps exactly `s[min(k - 1, len(s) - 1)]` seconds
and continues with counter `k`; and a clean completion of the task resets the
consecutive-failure counter to zero. -/
theorem async_repeat_backoff_schedule (s : List Nat) (hs : s ≠ [])
    (pre rest : List TaskOutcome) (hpre : noCancel pre) (k : Nat)
    (hk : counterAfter 0 pre + 1 = k) :
    async_repeat_until_cancelled s 0 (pre ++ TaskOutcome.raised false :: rest)
      = async_repeat_until_cancelled s 0 pre
        ++ SupEvent.ran
          :: SupEvent.slept (s.getD (min (k - 1) (s.length - 1)) 0)
          :: async_repeat_until_cancelled s k rest
    ∧ counterAfter 0 (pre ++ [TaskOutcome.ok]) = 0 := by
  constructor
  · rw [async_repeat_append s pre hpre 0]
    have hc : counterAfter 0 pre = k - 1 := by omega
    rw [hc]
    simp only [async_repeat_until_cancelled, if_neg Bool.false_ne_true]
    have hk1 : k - 1 + 1 = k := by omega
    rw [hk1]
  · rw [counterAfter_append 0 pre [TaskOutcome.ok] hpre]
    simp [counterAfter]

/-- Witness for C4: schedule `[1, 2, 4]`, a success followed by one failure,
then the second consecutive failure sleeps `s[min(1, 2)] = 2`. -/
theorem async_repeat_backoff_schedule_witness :
    (([1, 2, 4] : List Nat) ≠ []
      ∧ noCancel [TaskOutcome.ok, TaskOutcome.raised false]
      ∧ counterAfter 0 [TaskOutcome.ok, TaskOutcome.raised false] + 1 = 2)
    ∧ (async_repeat_until_cancelled [1, 2, 4] 0
          ([TaskOutcome.ok, TaskOutcome.raised false] ++ TaskOutcome.raised false :: [])
        = async_repeat_until_cancelled [1, 2, 4] 0 [TaskOutcome.ok, TaskOutcome.raised false]
          ++ SupEvent.ran
            :: SupEvent.slept (([1, 2, 4] : List Nat).getD
                  (min (2 - 1) (([1, 2, 4] : List Nat).length - 1)) 0)
            :: async_repeat_until_cancelled [1, 2, 4] 2 []
        ∧ counterAfter 0 ([TaskOutcome.ok, TaskOutcome.raised false]
            ++ [TaskOutcome.ok]) = 0) :=
  ⟨⟨by decide, by decide, by decide⟩,
    async_repeat_backoff_schedule [1, 2, 4] (by decide)
      [TaskOutcome.ok, TaskOutcome.raised false] [] (by decide) 2 (by decide)⟩

/-- C7: once a cancellation is delivered — either inside the running task or
while a backoff sleep is in flight — the supervisor returns at once: the
event trace is the same whatever outcomes would have followed, and it ends
with the supervisor returning. -/
theorem async_repeat_cancellation_stops (s : List Nat) (pre rest : List TaskOutcome)
    (hpre : noCancel pre) (o : TaskOutcome)
    (ho : o = TaskOutcome.cancelled ∨ o = TaskOutcome.raised true) :
    async_repeat_until_cancelled s 0 (pre ++ o :: rest)
      = async_repeat_until_cancelled s 0 (pre ++ [o])
    ∧ (async_repeat_until_cancelled s 0 (pre ++ [o])).getLast?
      = some SupEvent.returned := by
  have hstop : ∀ c rest', async_repeat_until_cancelled s c (o :: rest')
      = [SupEvent.ran, SupEvent.returned] := by
    intro c rest'
    rcases ho with rfl | rfl
    · simp [async_repeat_until_cancelled]
    · simp [async_repeat_until_cancelled]
  constructor
  · rw [async_repeat_append s pre hpre 0, async_repeat_append s pre hpre 0, hstop, hstop]
  · rw [async_repeat_append s pre hpre 0, hstop]
    have : async_repeat_until_cancelled s 0 pre ++ [SupEvent.ran, SupEvent.returned]
        = (async_repeat_until_cancelled s 0 pre ++ [SupEvent.ran]) ++ [SupEvent.returned] := by
      simp
    rw [this, List.getLast?_concat]

/-- Witness for C7: cancellation delivered during the backoff sleep that
follows a failure, with further (never-executed) outcomes behind it. -/
theorem async_repeat_cancellation_stops_witness :
    (noCancel [TaskOutcome.raised false]
      ∧ (TaskOutcome.raised true = TaskOutcome.cancelled
        ∨ TaskOutcome.raised true = TaskOutcome.raised true))
    ∧ (async_repeat_until_cancelled [1, 2] 0
          ([TaskOutcome.raised false] ++ TaskOutcome.raised true :: [TaskOutcome.ok])
        = async_repeat_until_cancelled [1, 2] 0
            ([TaskOutcome.raised false] ++ [TaskOutcome.raised true])
      ∧ (async_repeat_until_cancelled [1, 2] 0
            ([TaskOutcome.raised false] ++ [TaskOutcome.raised true])).getLast?
        = some SupEvent.returned) :=
  ⟨⟨by decide, by decide⟩,
    async_repeat_cancellation_stops [1, 2] [TaskOutcome.raised false] [TaskOutcome.ok]
      (by decide) (TaskOutcome.raised true) (by decide)⟩

/-! ## Metrics requests (`core/app/app_elasticsearch.py`) and the metrics
sampler (`create_metrics_application`, `core/app/app_outgoing.py`)

A backend response is modelled as its status code paired with the parsed
`count` (or, for the verification-age search, the optionally present
aggregation value).  `es_request_non_200_exception` raises a generic
exception on any non-200 status; `es_maybe_unvailable_metrics` (spelling as
in the source) turns 503 into `ESMetricsUnavailable` and any other non-200
into the generic exception. -/

inductive EsError where
  | exceptionRaised
  | metricsUnavailable
deriving DecidableEq

def es_request_non_200_exception {α : Type} (resp : Nat × α) : Except EsError α :=
  if resp.1 ≠ 200 then Except.error EsError.exceptionRaised else Except.ok resp.2

def es_maybe_unvailable_metrics {α : Type} (resp : Nat × α) : Except EsError α :=
  if resp.1 = 503 then Except.error EsError.metricsUnavailable
  else if resp.1 ≠ 200 then Except.error EsError.exceptionRaised
  else Except.ok resp.2

/-- `es_searchable_total`: `GET /activities/_count` through
`es_request_non_200_exception` — "This metric is expected to be available",
so 503 raises like any other non-200. -/
def es_searchable_total (resp : Nat × Int) : Except EsError Int :=
  es_request_non_200_exception resp

/-- `es_nonsearchable_total`: a `_count` through `es_maybe_unvailable_metrics`. -/
def es_nonsearchable_total (resp : Nat × Int) : Except EsError Int :=
  es_maybe_unvailable_metrics resp

/-- `es_min_verification_age`: the `_search` goes through
`es_request_non_200_exception`; a missing aggregation value raises
`ESMetricsUnavailable`. -/
def es_min_verification_age (resp : Nat × Option Int) : Except EsError Int :=
  match es_request_non_200_exception resp with
  | Except.error e => Except.error e
  | Except.ok (some age) => Except.ok age
  | Except.ok none => Except.error EsError.metricsUnavailable

/-- `es_feed_activities_total`: two `_count`s through
`es_maybe_unvailable_metrics`, then
`searchable = max(total - nonsearchable, 0)`. -/
def es_feed_activities_total (nonsearchableResp totalResp : Nat × Int) :
    Except EsError (Int × Int) :=
  match es_maybe_unvailable_metrics nonsearchableResp with
  | Except.error e => Except.error e
  | Except.ok nonsearchable =>
    match es_maybe_unvailable_metrics totalResp with
    | Except.error e => Except.error e
    | Except.ok total => Except.ok (max (total - nonsearchable) 0, nonsearchable)

/-- C10: whatever the two count responses, a successful
`es_feed_activities_total` never returns a negative searchable value, and when
the nonsearchable count exceeds the feed's total count the searchable value is
clamped to zero. -/
theorem es_feed_activities_total_clamped (nonsearchableResp totalResp : Nat × Int)
    (searchable nonsearchable : Int)
    (h : es_feed_activities_total nonsearchableResp totalResp
        = Except.ok (searchable, nonsearchable)) :
    0 ≤ searchable
    ∧ nonsearchable = nonsearchableResp.2
    ∧ (totalResp.2 < nonsearchable → searchable = 0) := by
  unfold es_feed_activities_total es_maybe_unvailable_metrics at h
  by_cases h1 : nonsearchableResp.1 = 503
  · simp [h1] at h
  · by_cases h2 : nonsearchableResp.1 ≠ 200
    · simp [h1, h2] at h
    · by_cases h3 : totalResp.1 = 503
      · simp [h1, h2, h3] at h
      · by_cases h4 : totalResp.1 ≠ 200
        · simp [h1, h2, h3, h4] at h
        · simp only [h1, h2, h3, h4, if_neg, if_pos, ite_false, ite_true,
            if_false, reduceIte] at h
          have hpair := Except.ok.inj h
          have hs : searchable = max (totalResp.2 - nonsearchableResp.2) 0 :=
            (Prod.mk.injEq _ _ _ _ ▸ hpair).1.symm
          have hn : nonsearchable = nonsearchableResp.2 :=
            (Prod.mk.injEq _ _ _ _ ▸ hpair).2.symm
          subst hs hn
          refine ⟨le_max_right _ _, rfl, ?_⟩
          intro hlt
          have : totalResp.2 - nonsearchableResp.2 ≤ 0 := by omega
          omega

/-- Witness for C10: total 3, nonsearchable 7 — the searchable value is 0. -/
theorem es_feed_activities_total_clamped_witness :
    es_feed_activities_total (200, 7) (200, 3) = Except.ok (0, 7)
    ∧ (0 ≤ (0 : Int) ∧ (7 : Int) = ((200, 7) : Nat × Int).2
        ∧ (((200, 3) : Nat × Int).2 < (7 : Int) → (0 : Int) = 0)) :=
  ⟨rfl, es_feed_activities_total_clamped (200, 7) (200, 3) 0 7 rfl⟩

/-- The responses one `poll_metrics` pass sees: the searchable `_count`, the
nonsearchable `_count`, the verification-age `_search`, and per feed the
nonsearchable and total `_count` pair. -/
structure MetricsEnv where
  searchable : Nat × Int
  nonsearchable : Nat × Int
  verificationAge : Nat × Option Int
  perFeed : List (String × (Nat × Int) × (Nat × Int))

/-- Observable effects of one `poll_metrics` pass: gauge updates and the
final `redis_set_metrics`. -/
inductive MU where
  | activitiesTotal (label : String) (value : Int)
  | activitiesAge (label : String) (value : Int)
  | feedActivitiesTotal (feedId : String) (label : String) (value : Int)
  | redisSetMetrics
deriving DecidableEq

/-- `set_metric_if_can`: sets the gauge unless the value computation raised
`ESMetricsUnavailable`, which is swallowed; any other exception propagates. -/
def set_metric_if_can (res : Except EsError Int) : Except EsError (Option Int) :=
  match res with
  | Except.ok v => Except.ok (some v)
  | Except.error EsError.metricsUnavailable => Except.ok none
  | Except.error EsError.exceptionRaised => Except.error EsError.exceptionRaised

def optMU (f : Int → MU) : Option Int → List MU
  | none => []
  | some v => [f v]

/-- The `for feed_id in feed_ids` loop of `poll_metrics`: per feed,
`es_feed_activities_total` then the two gauge updates, with
`ESMetricsUnavailable` caught per feed by `except ...: pass` and any other
exception propagating. -/
def per_feed_metrics : List (String × (Nat × Int) × (Nat × Int)) → Except EsError (List MU)
  | [] => Except.ok []
  | (feedId, r1, r2) :: rest =>
    match es_feed_activities_total r1 r2 with
    | Except.ok p =>
        match per_feed_metrics rest with
        | Except.ok tail => Except.ok (MU.feedActivitiesTotal feedId "searchable" p.1
            :: MU.feedActivitiesTotal feedId "nonsearchable" p.2 :: tail)
        | Except.error e => Except.error e
    | Except.error EsError.metricsUnavailable => per_feed_metrics rest
    | Except.error EsError.exceptionRaised => Except.error EsError.exceptionRaised

/-- One pass of `poll_metrics` in `create_metrics_application`: the searchable
total (whose failure propagates), the guarded nonsearchable total and
verification age, the per-feed loop, then `redis_set_metrics`. -/
def poll_metrics (env : MetricsEnv) : Except EsError (List MU) :=
  match es_searchable_total env.searchable with
  | Except.error e => Except.error e
  | Except.ok searchable =>
    match set_metric_if_can (es_nonsearchable_total env.nonsearchable) with
    | Except.error e => Except.error e
    | Except.ok nonsearchableOpt =>
      match set_metric_if_can (es_min_verification_age env.verificationAge) with
      | Except.error e => Except.error e
      | Except.ok ageOpt =>
        match per_feed_metrics env.perFeed with
        | Except.error e => Except.error e
        | Except.ok feedUpdates =>
          Except.ok (MU.activitiesTotal "searchable" searchable
            :: (optMU (MU.activitiesTotal "nonsearchable") nonsearchableOpt
              ++ optMU (MU.activitiesAge "verification") ageOpt
              ++ feedUpdates ++ [MU.redisSetMetrics]))

/-- C5, counterexample: a 503 from the searchable `_count`
(`/activities/_count`, issued through `es_request_non_200_exception`) makes
the whole sampling pass raise — it is not silently skipped, no other label is
updated, and nothing is stored. -/
theorem poll_metrics_searchable_503_counterexample :
    poll_metrics ⟨(503, 0), (200, 0), (200, some 0), [("f1", (200, 1), (200, 2))]⟩
      = Except.error EsError.exceptionRaised
    ∧ (⟨(503, 0), (200, 0), (200, some 0),
        [("f1", (200, 1), (200, 2))]⟩ : MetricsEnv).searchable.1 = 503 :=
  ⟨rfl, rfl⟩

/-- Normal form of the per-feed loop when every status is 200 or 503. -/
def expected_feed_metrics : List (String × (Nat × Int) × (Nat × Int)) → List MU
  | [] => []
  | (feedId, r1, r2) :: rest =>
    if r1.1 = 503 ∨ r2.1 = 503 then expected_feed_metrics rest
    else MU.feedActivitiesTotal feedId "searchable" (max (r2.2 - r1.2) 0)
      :: MU.feedActivitiesTotal feedId "nonsearchable" r1.2
      :: expected_feed_metrics rest

theorem per_feed_metrics_ok (lst : List (String × (Nat × Int) × (Nat × Int)))
    (h : ∀ e ∈ lst, (e.2.1.1 = 200 ∨ e.2.1.1 = 503) ∧ (e.2.2.1 = 200 ∨ e.2.2.1 = 503)) :
    per_feed_metrics lst = Except.ok (expected_feed_metrics lst) := by
  induction lst with
  | nil => rfl
  | cons e rest ih =>
    obtain ⟨feedId, r1, r2⟩ := e
    have he : (r1.1 = 200 ∨ r1.1 = 503) ∧ (r2.1 = 200 ∨ r2.1 = 503) :=
      h (feedId, r1, r2) (by simp)
    have hrest := ih (fun x hx => h x (by simp [hx]))
    rcases he with ⟨h1 | h1, h2 | h2⟩
    · have h1' : r1.1 ≠ 503 := by omega
      have h2' : r2.1 ≠ 503 := by omega
      have h1n : ¬ r1.1 ≠ 200 := by omega
      have h2n : ¬ r2.1 ≠ 200 := by omega
      simp only [per_feed_metrics, es_feed_activities_total, es_maybe_unvailable_metrics,
        if_neg h1', if_neg h1n, if_neg h2', if_neg h2n, hrest,
        expected_feed_metrics]
      rw [if_neg (by tauto)]
    · have h1' : r1.1 ≠ 503 := by omega
      have h1n : ¬ r1.1 ≠ 200 := by omega
      simp only [per_feed_metrics, es_feed_activities_total, es_maybe_unvailable_metrics,
        if_neg h1', if_neg h1n, if_pos h2, hrest, expected_feed_metrics]
      rw [if_pos (by tauto)]
    · simp only [per_feed_metrics, es_feed_activities_total, es_maybe_unvailable_metrics,
        if_pos h1, hrest, expected_feed_metrics]
      rw [if_pos (by tauto)]
    · simp only [per_feed_metrics, es_feed_activities_total, es_maybe_unvailable_metrics,
        if_pos h1, hrest, expected_feed_metrics]
      rw [if_pos (by tauto)]

theorem not_mem_expected_of_fid_absent (lst : List (String × (Nat × Int) × (Nat × Int)))
    (fid : String) (habs : fid ∉ lst.map (fun e => e.1)) (lab : String) (v : Int) :
    MU.feedActivitiesTotal fid lab v ∉ expected_feed_metrics lst := by
  induction lst with
  | nil => simp [expected_feed_metrics]
  | cons e rest ih =>
    obtain ⟨feedId, r1, r2⟩ := e
    have hne : fid ≠ feedId := by
      intro hcontr
      exact habs (by simp [hcontr])
    have habs' : fid ∉ rest.map (fun e => e.1) := by
      intro hcontr
      exact habs (by simp [hcontr])
    simp only [expected_feed_metrics]
    split
    · exact ih habs'
    · intro hmem
      simp only [List.mem_cons] at hmem
      rcases hmem with hh | hh | hh
      · exact hne (MU.feedActivitiesTotal.injEq _ _ _ _ _ _ ▸ hh).1
      · exact hne (MU.feedActivitiesTotal.injEq _ _ _ _ _ _ ▸ hh).1
      · exact ih habs' hh

theorem skipped_feed_not_in_expected (lst : List (String × (Nat × Int) × (Nat × Int)))
    (hnodup : (lst.map (fun e => e.1)).Nodup)
    (e : String × (Nat × Int) × (Nat × Int)) (he : e ∈ lst)
    (h503 : e.2.1.1 = 503 ∨ e.2.2.1 = 503) (lab : String) (v : Int) :
    MU.feedActivitiesTotal e.1 lab v ∉ expected_feed_metrics lst := by
  induction lst with
  | nil => simp at he
  | cons x rest ih =>
    obtain ⟨feedId, r1, r2⟩ := x
    have hnodup' : (rest.map (fun e => e.1)).Nodup := (List.nodup_cons.mp hnodup).2
    have hhead : feedId ∉ rest.map (fun e => e.1) := (List.nodup_cons.mp hnodup).1
    rcases List.mem_cons.mp he with rfl | hmem
    · simp only [expected_feed_metrics]
      rw [if_pos (by simpa using h503)]
      exact not_mem_expected_of_fid_absent rest _ (by simpa using hhead) lab v
    · have hfid : e.1 ≠ feedId := by
        intro hcontr
        apply hhead
        rw [← hcontr]
        exact List.mem_map.mpr ⟨e, hmem, rfl⟩
      simp only [expected_feed_metrics]
      split
      · exact ih hnodup' hmem
      · intro hm
        simp only [List.mem_cons] at hm
        rcases hm with hh | hh | hh
        · exact hfid (MU.feedActivitiesTotal.injEq _ _ _ _ _ _ ▸ hh).1
        · exact hfid (MU.feedActivitiesTotal.injEq _ _ _ _ _ _ ▸ hh).1
        · exact ih hnodup' hmem hh

theorem ok_feed_in_expected (lst : List (String × (Nat × Int) × (Nat × Int)))
    (e : String × (Nat × Int) × (Nat × Int)) (he : e ∈ lst)
    (h1 : e.2.1.1 = 200) (h2 : e.2.2.1 = 200) :
    MU.feedActivitiesTotal e.1 "searchable" (max (e.2.2.2 - e.2.1.2) 0)
        ∈ expected_feed_metrics lst
    ∧ MU.feedActivitiesTotal e.1 "nonsearchable" e.2.1.2 ∈ expected_feed_metrics lst := by
  induction lst with
  | nil => simp at he
  | cons x rest ih =>
    obtain ⟨feedId, r1, r2⟩ := x
    rcases List.mem_cons.mp he with rfl | hmem
    · simp only [expected_feed_metrics]
      rw [if_neg (by simp at h1 h2 ⊢; omega)]
      constructor
      · simp
      · simp
    · rcases ih hmem with ⟨ha, hb⟩
      simp only [expected_feed_metrics]
      split
      · exact ⟨ha, hb⟩
      · exact ⟨by simp [ha], by simp [hb]⟩

/-- C5 (amended): a 503 from the `_count`s issued through
`es_maybe_unvailable_metrics` — the nonsearchable total and the per-feed
counts — is silently skipped: the pass completes, no value is published for a
feed whose counts returned 503, every feed whose counts returned 200 still
gets both its values, and the metrics snapshot is still stored.  A 503 from
the searchable `_count` (`es_searchable_total`), by contrast, raises (see the
counterexample). -/
theorem poll_metrics_503_skips (env : MetricsEnv)
    (h1 : env.searchable.1 = 200)
    (h2 : env.nonsearchable.1 = 200 ∨ env.nonsearchable.1 = 503)
    (h3 : env.verificationAge.1 = 200)
    (h4 : ∀ e ∈ env.perFeed, (e.2.1.1 = 200 ∨ e.2.1.1 = 503) ∧ (e.2.2.1 = 200 ∨ e.2.2.1 = 503))
    (h5 : (env.perFeed.map (fun e => e.1)).Nodup) :
    ∃ updates : List MU, poll_metrics env = Except.ok updates
      ∧ MU.redisSetMetrics ∈ updates
      ∧ (∀ e ∈ env.perFeed, (e.2.1.1 = 503 ∨ e.2.2.1 = 503) →
          ∀ lab v, MU.feedActivitiesTotal e.1 lab v ∉ updates)
      ∧ (∀ e ∈ env.perFeed, e.2.1.1 = 200 → e.2.2.1 = 200 →
          MU.feedActivitiesTotal e.1 "searchable" (max (e.2.2.2 - e.2.1.2) 0) ∈ updates
          ∧ MU.feedActivitiesTotal e.1 "nonsearchable" e.2.1.2 ∈ updates) := by
  have hsearch : es_searchable_total env.searchable = Except.ok env.searchable.2 := by
    simp [es_searchable_total, es_request_non_200_exception, h1]
  have hnon : ∃ nsOpt, set_metric_if_can (es_nonsearchable_total env.nonsearchable)
      = Except.ok nsOpt := by
    rcases h2 with h2 | h2
    · exact ⟨some env.nonsearchable.2, by
        simp [set_metric_if_can, es_nonsearchable_total, es_maybe_unvailable_metrics, h2]⟩
    · exact ⟨none, by
        simp [set_metric_if_can, es_nonsearchable_total, es_maybe_unvailable_metrics, h2]⟩
  have hage : ∃ ageOpt, set_metric_if_can (es_min_verification_age env.verificationAge)
      = Except.ok ageOpt := by
    rcases hv : env.verificationAge.2 with _ | age
    · exact ⟨none, by
        simp [set_metric_if_can, es_min_verification_age, es_request_non_200_exception, h3, hv]⟩
    · exact ⟨some age, by
        simp [set_metric_if_can, es_min_verification_age, es_request_non_200_exception, h3, hv]⟩
  obtain ⟨nsOpt, hnon⟩ := hnon
  obtain ⟨ageOpt, hage⟩ := hage
  have hfeed := per_feed_metrics_ok env.perFeed h4
  refine ⟨MU.activitiesTotal "searchable" env.searchable.2
      :: (optMU (MU.activitiesTotal "nonsearchable") nsOpt
        ++ optMU (MU.activitiesAge "verification") ageOpt
        ++ expected_feed_metrics env.perFeed ++ [MU.redisSetMetrics]), ?_, ?_, ?_, ?_⟩
  · simp only [poll_metrics, hsearch, hnon, hage, hfeed]
  · simp
  · intro e he h503 lab v hmem
    simp only [List.mem_cons, List.mem_append] at hmem
    rcases hmem with hh | ((hh | hh) | hh) | hh
    · cases hh
    · rcases nsOpt with _ | nv
      · simp [optMU] at hh
      · simp only [optMU, List.mem_cons, List.not_mem_nil, or_false] at hh
        cases hh
    · rcases ageOpt with _ | av
      · simp [optMU] at hh
      · simp only [optMU, List.mem_cons, List.not_mem_nil, or_false] at hh
        cases hh
    · exact skipped_feed_not_in_expected env.perFeed h5 e he h503 lab v hh
    · simp only [List.mem_cons, List.not_mem_nil, or_false] at hh
      cases hh
  · intro e he he1 he2
    rcases ok_feed_in_expected env.perFeed e he he1 he2 with ⟨ha, hb⟩
    constructor
    · simp only [List.mem_cons, List.mem_append]
      exact Or.inr (Or.inl (Or.inr ha))
    · simp only [List.mem_cons, List.mem_append]
      exact Or.inr (Or.inl (Or.inr hb))

/-- Witness for C5's amended theorem: feed `f1` gets a 503 on its total count
and is skipped; feed `f2` returns 200s and keeps publishing; the snapshot is
stored. -/
theorem poll_metrics_503_skips_witness :
    ((⟨(200, 9), (503, 0), (200, some 4),
        [("f1", (200, 1), (503, 0)), ("f2", (200, 2), (200, 5))]⟩ : MetricsEnv).searchable.1
        = 200
      ∧ ((⟨(200, 9), (503, 0), (200, some 4),
          [("f1", (200, 1), (503, 0)), ("f2", (200, 2), (200, 5))]⟩ : MetricsEnv).perFeed.map
            (fun e => e.1)).Nodup)
    ∧ ∃ updates : List MU,
        poll_metrics ⟨(200, 9), (503, 0), (200, some 4),
            [("f1", (200, 1), (503, 0)), ("f2", (200, 2), (200, 5))]⟩ = Except.ok updates
        ∧ MU.redisSetMetrics ∈ updates
        ∧ (∀ e ∈ (⟨(200, 9), (503, 0), (200, some 4),
              [("f1", (200, 1), (503, 0)), ("f2", (200, 2), (200, 5))]⟩ : MetricsEnv).perFeed,
            (e.2.1.1 = 503 ∨ e.2.2.1 = 503) →
            ∀ lab v, MU.feedActivitiesTotal e.1 lab v ∉ updates)
        ∧ (∀ e ∈ (⟨(200, 9), (503, 0), (200, some 4),
              [("f1", (200, 1), (503, 0)), ("f2", (200, 2), (200, 5))]⟩ : MetricsEnv).perFeed,
            e.2.1.1 = 200 → e.2.2.1 = 200 →
            MU.feedActivitiesTotal e.1 "searchable" (max (e.2.2.2 - e.2.1.2) 0) ∈ updates
            ∧ MU.feedActivitiesTotal e.1 "nonsearchable" e.2.1.2 ∈ updates) :=
  ⟨⟨rfl, by simp⟩,
    poll_metrics_503_skips ⟨(200, 9), (503, 0), (200, some 4),
        [("f1", (200, 1), (503, 0)), ("f2", (200, 2), (200, 5))]⟩
      rfl (Or.inr rfl) rfl (by
        intro e he
        simp only [List.mem_cons, List.not_mem_nil, or_false] at he
        rcases he with rfl | rfl
        · exact ⟨Or.inl rfl, Or.inr rfl⟩
        · exact ⟨Or.inl rfl, Or.inl rfl⟩) (by simp)⟩

/-! ## Index names and feed markers (`core/app/app_elasticsearch.py`)

Index names are strings; the Python code matches feeds to indexes with
`f'{ALIAS}__feed_id_{feed_unique_id}__' in index_name`.  Strings are modelled
as `List Char` here so that substring occurrence is the `∃ a b, s = a ++ p ++ b`
decomposition. -/

/-- The marker substring `f'{ALIAS}__feed_id_{feed_unique_id}__'`. -/
def feedMarker (feed_unique_id : List Char) : List Char :=
  "activities__feed_id_".toList ++ feed_unique_id ++ "__".toList

/-- Python's `p in s` prefix worker: `isPre p s` is true when `p` is an
initial segment of `s`. -/
def isPre : List Char → List Char → Bool
  | [], _ => true
  | _ :: _, [] => false
  | a :: p, b :: s => a == b && isPre p s

/-- Python's `p in s` substring test. -/
def hasSub (p s : List Char) : Bool :=
  isPre p s || match s with
    | [] => false
    | _ :: rest => hasSub p rest

theorem isPre_iff (p s : List Char) : isPre p s = true ↔ ∃ t, s = p ++ t := by
  induction p generalizing s with
  | nil => simp [isPre]
  | cons a p ih =>
    cases s with
    | nil =>
      simp only [isPre, Bool.false_eq_true, false_iff]
      rintro ⟨t, ht⟩
      exact absurd ht (by simp)
    | cons b s =>
      simp only [isPre, Bool.and_eq_true, beq_iff_eq, ih, List.cons_append, List.cons.injEq]
      constructor
      · rintro ⟨rfl, t, rfl⟩
        exact ⟨t, rfl, rfl⟩
      · rintro ⟨t, rfl, rfl⟩
        exact ⟨rfl, t, rfl⟩

theorem hasSub_iff (p s : List Char) : hasSub p s = true ↔ ∃ a b, s = a ++ p ++ b := by
  induction s with
  | nil =>
    simp only [hasSub, isPre_iff, Bool.or_eq_true]
    constructor
    · rintro (⟨t, ht⟩ | hfalse)
      · exact ⟨[], t, by simpa using ht⟩
      · simp at hfalse
    · rintro ⟨a, b, hab⟩
      rcases List.append_eq_nil.mp (List.append_eq_nil.mp hab.symm).1 with ⟨rfl, rfl⟩
      exact Or.inl ⟨b, by simpa using hab⟩
  | cons c s ih =>
    simp only [hasSub, Bool.or_eq_true, isPre_iff, ih]
    constructor
    · rintro (⟨t, ht⟩ | ⟨a, b, hab⟩)
      · exact ⟨[], t, by simpa using ht⟩
      · exact ⟨c :: a, b, by simp [hab]⟩
    · rintro ⟨a, b, hab⟩
      cases a with
      | nil => exact Or.inl ⟨b, by simpa using hab⟩
      | cons a0 a' =>
        simp only [List.cons_append, List.cons.injEq] at hab
        exact Or.inr ⟨a', b, hab.2⟩

theorem mem_flatten {α : Type} (y : α) (l : List (List α)) :
    y ∈ flatten l ↔ ∃ s ∈ l, y ∈ s := by
  induction l with
  | nil => simp [flatten]
  | cons s rest ih =>
    simp only [flatten, List.mem_append, ih, List.mem_cons]
    constructor
    · rintro (hy | ⟨t, ht, hy⟩)
      · exact ⟨s, Or.inl rfl, hy⟩
      · exact ⟨t, Or.inr ht, hy⟩
    · rintro ⟨t, rfl | ht, hy⟩
      · exact Or.inl hy
      · exact Or.inr ⟨t, ht, hy⟩

/-- `indexes_matching_feed`: the index names containing the feed's marker. -/
def indexes_matching_feed (index_names : List (List Char)) (feed_unique_id : List Char) :
    List (List Char) :=
  index_names.filter (fun index_name => hasSub (feedMarker feed_unique_id) index_name)

/-- `indexes_matching_feeds`: flatten of the per-feed matches. -/
def indexes_matching_feeds (index_names : List (List Char))
    (feed_unique_ids : List (List Char)) : List (List Char) :=
  flatten (feed_unique_ids.map (fun feed_unique_id =>
    indexes_matching_feed index_names feed_unique_id))

/-- The target set computed by `ingest_feed_updates`
(`core/app/app_outgoing.py`): `indexes_matching_feeds(indexes_without_alias +
indexes_with_alias, [feed.unique_id])` — deliberately both the live and the
ingesting indexes. -/
def updates_targets (indexes_without_alias indexes_with_alias : List (List Char))
    (feed_unique_id : List Char) : List (List Char) :=
  indexes_matching_feeds (indexes_without_alias ++ indexes_with_alias) [feed_unique_id]

/-- One bulk record produced for the updates pass: the index it is addressed
to plus the activity payload. -/
structure UpdBulkItem where
  indexName : List Char
  activityId : String
  source : Json

/-- Modelled from the spec: `convert_to_bulk_es` of the feed adapters lives in
`core/app/app_feeds.py`, which is not among the sources; §4.4 of the spec
says it "fans each activity out to every index name it is given", emitting
one `(action_and_metadata, source)` pair per target index per activity. -/
def convert_to_bulk_es (activities : List (String × Json))
    (index_names : List (List Char)) : List UpdBulkItem :=
  flatten (activities.map (fun activity =>
    index_names.map (fun index_name => ⟨index_name, activity.1, activity.2⟩)))

theorem mem_convert_to_bulk (activities : List (String × Json))
    (index_names : List (List Char)) (hacts : activities ≠ []) (n : List Char) :
    (∃ item ∈ convert_to_bulk_es activities index_names, item.indexName = n)
      ↔ n ∈ index_names := by
  constructor
  · rintro ⟨item, hitem, rfl⟩
    rcases (mem_flatten _ _).mp hitem with ⟨s, hs, hitem'⟩
    rcases List.mem_map.mp hs with ⟨activity, _, rfl⟩
    rcases List.mem_map.mp hitem' with ⟨m, hm, rfl⟩
    exact hm
  · intro hn
    rcases activities with _ | ⟨activity, rest⟩
    · exact absurd rfl hacts
    · refine ⟨⟨n, activity.1, activity.2⟩, ?_, rfl⟩
      refine (mem_flatten _ _).mpr ⟨index_names.map
        (fun index_name => ⟨index_name, activity.1, activity.2⟩), ?_, ?_⟩
      · exact List.mem_map.mpr ⟨activity, by simp, rfl⟩
      · exact List.mem_map.mpr ⟨n, hn, rfl⟩

/-- C6: in an updates pass the set of indexes the bulk items are fanned out
to is exactly the listed indexes — from both the without-alias and with-alias
listings — whose names contain the substring `activities__feed_id_<id>__`. -/
theorem ingest_feed_updates_fanout (indexes_without_alias indexes_with_alias : List (List Char))
    (activities : List (String × Json)) (feed_unique_id : List Char)
    (hacts : activities ≠ []) (n : List Char) :
    (∃ item ∈ convert_to_bulk_es activities
        (updates_targets indexes_without_alias indexes_with_alias feed_unique_id),
      item.indexName = n)
    ↔ (n ∈ indexes_without_alias ++ indexes_with_alias
        ∧ ∃ a b, n = a ++ feedMarker feed_unique_id ++ b) := by
  rw [mem_convert_to_bulk _ _ hacts]
  simp only [updates_targets, indexes_matching_feeds, indexes_matching_feed]
  rw [mem_flatten]
  constructor
  · rintro ⟨s, hs, hn⟩
    simp only [List.map_cons, List.map_nil, List.mem_cons, List.not_mem_nil, or_false] at hs
    subst hs
    rcases List.mem_filter.mp hn with ⟨hmem, hsub⟩
    exact ⟨hmem, (hasSub_iff _ _).mp hsub⟩
  · rintro ⟨hmem, hsub⟩
    refine ⟨(indexes_without_alias ++ indexes_with_alias).filter
      (fun index_name => hasSub (feedMarker feed_unique_id) index_name), by simp, ?_⟩
    exact List.mem_filter.mpr ⟨hmem, (hasSub_iff _ _).mpr hsub⟩

/-- Witness for C6: one listed index bears the feed marker for `f1`, another
(for `f2`) does not; the fan-out targets exactly the former. -/
theorem ingest_feed_updates_fanout_witness :
    ([(("a", Json.null) : String × Json)] ≠ []
      ∧ ((∃ item ∈ convert_to_bulk_es [(("a", Json.null) : String × Json)]
            (updates_targets ["activities__feed_id_f1__x__".toList]
              ["activities__feed_id_f2__y__".toList] ("f1".toList)),
          item.indexName = "activities__feed_id_f1__x__".toList)
        ↔ ("activities__feed_id_f1__x__".toList
              ∈ ["activities__feed_id_f1__x__".toList] ++ ["activities__feed_id_f2__y__".toList]
            ∧ ∃ a b, "activities__feed_id_f1__x__".toList
                = a ++ feedMarker ("f1".toList) ++ b))) :=
  ⟨by simp,
    ingest_feed_updates_fanout ["activities__feed_id_f1__x__".toList]
      ["activities__feed_id_f2__y__".toList] [(("a", Json.null) : String × Json)]
      ("f1".toList) (by simp) ("activities__feed_id_f1__x__".toList)⟩

/-! ## `get_new_index_name` and uniqueness of the feed marker

`get_new_index_name` builds
`f'{ALIAS}__feed_id_{feed_unique_id}__date_{today}__timestamp_{now}__batch_id_{unique}__'`;
`today` is an ISO date (digits and hyphens), `now` a seconds timestamp
(digits) and `unique` ten lowercase hex digits — all non-empty and free of
underscores.  The clock and `os.urandom` outputs are parameters here. -/

def get_new_index_name (feed_unique_id today now unique : List Char) : List Char :=
  "activities__feed_id_".toList ++ feed_unique_id
    ++ "__date_".toList ++ today
    ++ "__timestamp_".toList ++ now
    ++ "__batch_id_".toList ++ unique
    ++ "__".toList

/-- C8, counterexample: feed ids are arbitrary strings, and for
`f = "a__x"`, `g = "a"` (two distinct feed ids) the marker of `g` occurs
inside the index name generated for `f`. -/
theorem feed_marker_collision_counterexample :
    ("a".toList : List Char) ≠ "a__x".toList
    ∧ get_new_index_name ("a__x".toList) ("2026-10-12".toList) ("1760227200".toList)
        ("0123456789".toList)
      = [] ++ feedMarker ("a".toList)
        ++ "x__date_2026-10-12__timestamp_1760227200__batch_id_0123456789__".toList := by
  constructor
  · decide
  · decide

/-- `noUUb l` is true when `l` has no two adjacent underscores. -/
def noUUb : List Char → Bool
  | a :: b :: t => !(a == '_' && b == '_') && noUUb (b :: t)
  | _ => true

def noUU (l : List Char) : Prop := noUUb l = true

instance noUUDecidable (l : List Char) : Decidable (noUU l) :=
  inferInstanceAs (Decidable (noUUb l = true))

theorem noUU_cons_cons (a b : Char) (t : List Char) :
    noUU (a :: b :: t) ↔ ¬(a = '_' ∧ b = '_') ∧ noUU (b :: t) := by
  simp only [noUU, noUUb, Bool.and_eq_true, Bool.not_eq_true', Bool.and_eq_false_iff,
    beq_eq_false_iff_ne, ne_eq, beq_iff_eq]
  constructor
  · rintro ⟨h1, h2⟩
    exact ⟨fun ⟨ha, hb⟩ => by rcases h1 with h | h <;> [exact h ha; exact h hb], h2⟩
  · rintro ⟨h1, h2⟩
    refine ⟨?_, h2⟩
    by_cases ha : a = '_'
    · exact Or.inr (fun hb => h1 ⟨ha, hb⟩)
    · exact Or.inl ha

theorem noUU_tail (a : Char) (t : List Char) (h : noUU (a :: t)) : noUU t := by
  cases t with
  | nil => simp [noUU, noUUb]
  | cons b t' => exact ((noUU_cons_cons a b t').mp h).2

theorem noUU_of_free (l : List Char) (h : '_' ∉ l) : noUU l := by
  induction l with
  | nil => simp [noUU, noUUb]
  | cons a t ih =>
    cases t with
    | nil => simp [noUU, noUUb]
    | cons b t' =>
      refine (noUU_cons_cons a b t').mpr ⟨?_, ih (fun hm => h (by simp [hm]))⟩
      rintro ⟨rfl, rfl⟩
      exact h (by simp)

theorem noUU_append (p q : List Char) (hp : noUU p) (hq : '_' ∉ q) : noUU (p ++ q) := by
  induction p with
  | nil => exact noUU_of_free q hq
  | cons a rest ih =>
    cases rest with
    | nil =>
      cases q with
      | nil => simp [noUU, noUUb]
      | cons c q' =>
        refine (noUU_cons_cons a c q').mpr ⟨?_, noUU_of_free _ (fun hm => hq (by simp [hm]))⟩
        rintro ⟨rfl, rfl⟩
        exact hq (by simp)
    | cons b rest' =>
      have hpair := ((noUU_cons_cons a b rest').mp hp).1
      have htail := ((noUU_cons_cons a b rest').mp hp).2
      exact (noUU_cons_cons a b (rest' ++ q)).mpr ⟨hpair, ih htail⟩

theorem noUU_not_split (l : List Char) (h : noUU l) (a b : List Char) :
    l ≠ a ++ '_' :: '_' :: b := by
  induction a generalizing l with
  | nil =>
    intro heq
    subst heq
    exact absurd rfl (not_and.mp ((noUU_cons_cons _ _ _).mp h).1 rfl)
  | cons c a' ih =>
    intro heq
    subst heq
    exact ih _ (noUU_tail _ _ h) rfl

/-- Two occurrences of the separator `"__"` in one list either coincide, are
disjoint (one strictly inside the remainder of the other), or overlap by one
underscore. -/
theorem sep_split (t : List Char) : ∀ (u x v : List Char),
    t ++ '_' :: '_' :: x = u ++ '_' :: '_' :: v →
    (t = u ∧ x = v)
    ∨ (∃ w, u = t ++ '_' :: '_' :: w ∧ x = w ++ '_' :: '_' :: v)
    ∨ (∃ w, t = u ++ '_' :: '_' :: w ∧ v = w ++ '_' :: '_' :: x)
    ∨ (u = t ++ ['_'] ∧ x = '_' :: v)
    ∨ (t = u ++ ['_'] ∧ v = '_' :: x) := by
  induction t with
  | nil =>
    intro u x v h
    cases u with
    | nil =>
      simp only [List.nil_append, List.cons.injEq] at h
      exact Or.inl ⟨rfl, h.2.2⟩
    | cons c u' =>
      simp only [List.nil_append, List.cons_append, List.cons.injEq] at h
      obtain ⟨hc, h2⟩ := h
      cases u' with
      | nil =>
        simp only [List.nil_append, List.cons.injEq, true_and] at h2
        exact Or.inr (Or.inr (Or.inr (Or.inl ⟨by simp [← hc], h2⟩)))
      | cons c' u'' =>
        simp only [List.cons_append, List.cons.injEq] at h2
        obtain ⟨hc', h3⟩ := h2
        exact Or.inr (Or.inl ⟨u'', by simp [← hc, ← hc'], h3⟩)
  | cons c t' ih =>
    intro u x v h
    cases u with
    | nil =>
      simp only [List.cons_append, List.nil_append, List.cons.injEq] at h
      obtain ⟨hc, h2⟩ := h
      cases t' with
      | nil =>
        simp only [List.nil_append, List.cons.injEq, true_and] at h2
        exact Or.inr (Or.inr (Or.inr (Or.inr ⟨by simp [hc], h2.symm⟩)))
      | cons c' t'' =>
        simp only [List.cons_append, List.cons.injEq] at h2
        obtain ⟨hc', h3⟩ := h2
        exact Or.inr (Or.inr (Or.inl ⟨t'', by simp [hc, hc'], h3.symm⟩))
    | cons c' u' =>
      simp only [List.cons_append, List.cons.injEq] at h
      obtain ⟨hcc, h2⟩ := h
      subst hcc
      rcases ih u' x v h2 with ⟨ht, hx⟩ | ⟨w, hu, hx⟩ | ⟨w, ht, hv⟩ | ⟨hu, hx⟩ | ⟨ht, hv⟩
      · exact Or.inl ⟨by rw [ht], hx⟩
      · exact Or.inr (Or.inl ⟨w, by simp [hu], hx⟩)
      · exact Or.inr (Or.inr (Or.inl ⟨w, by simp [ht], hv⟩))
      · exact Or.inr (Or.inr (Or.inr (Or.inl ⟨by simp [hu], hx⟩)))
      · exact Or.inr (Or.inr (Or.inr (Or.inr ⟨by simp [ht], hv⟩)))

/-- A well-formed token: non-empty, no leading or trailing underscore, no
adjacent pair of underscores inside. -/
structure OkTok (l : List Char) : Prop where
  ne : l ≠ []
  headOk : l.head? ≠ some '_'
  lastOk : l.getLast? ≠ some '_'
  nouu : noUU l

/-- In `tok ++ "__" ++ x` with a well-formed token and `x` not starting with
an underscore, any occurrence of `"__"` is either the explicit separator or
lies inside `x`. -/
theorem sep_head (tok u x v : List Char) (htok : OkTok tok) (hx : x.head? ≠ some '_')
    (h : tok ++ '_' :: '_' :: x = u ++ '_' :: '_' :: v) :
    (u = tok ∧ v = x) ∨ ∃ w, u = tok ++ '_' :: '_' :: w ∧ x = w ++ '_' :: '_' :: v := by
  rcases sep_split tok u x v h with ⟨ht, hx'⟩ | ⟨w, hu, hx'⟩ | ⟨w, ht, hv⟩ | ⟨hu, hx'⟩
    | ⟨ht, hv⟩
  · exact Or.inl ⟨ht.symm, hx'.symm⟩
  · exact Or.inr ⟨w, hu, hx'⟩
  · exact absurd ht (noUU_not_split tok htok.nouu u w)
  · rw [hx'] at hx
    simp at hx
  · exfalso
    apply htok.lastOk
    rw [ht, List.getLast?_concat]

/-- Join of tokens, each followed by the separator `"__"` (the shape of a
generated index name). -/
def sepJoin : List (List Char) → List Char
  | [] => []
  | tok :: rest => tok ++ '_' :: '_' :: sepJoin rest

theorem sepJoin_head (ts : List (List Char)) (hts : ∀ tok ∈ ts, OkTok tok) :
    (sepJoin ts).head? ≠ some '_' := by
  cases ts with
  | nil => simp [sepJoin]
  | cons tok rest =>
    have htok := hts tok (by simp)
    cases tok with
    | nil => exact absurd rfl htok.ne
    | cons c tok' =>
      simpa [sepJoin] using htok.headOk

/-- Every occurrence of `"__"` in a join of well-formed tokens aligns with
one of the separators. -/
theorem sepJoin_split (ts : List (List Char)) : ∀ (u v : List Char),
    (∀ tok ∈ ts, OkTok tok) → sepJoin ts = u ++ '_' :: '_' :: v →
    ∃ ts1 tok ts2, ts = ts1 ++ tok :: ts2 ∧ u = sepJoin ts1 ++ tok ∧ v = sepJoin ts2 := by
  induction ts with
  | nil =>
    intro u v _ h
    exact absurd h (by cases u <;> simp [sepJoin])
  | cons tok rest ih =>
    intro u v hts h
    have hx : (sepJoin rest).head? ≠ some '_' :=
      sepJoin_head rest (fun t ht => hts t (by simp [ht]))
    rcases sep_head tok u (sepJoin rest) v (hts tok (by simp)) hx h with ⟨hu, hv⟩
      | ⟨w, hu, hw⟩
    · exact ⟨[], tok, rest, rfl, by simp [sepJoin, hu], hv⟩
    · rcases ih w v (fun t ht => hts t (by simp [ht])) hw with
        ⟨ts1, tok', ts2, hts_eq, hu', hv'⟩
      exact ⟨tok :: ts1, tok', ts2, by simp [hts_eq], by simp [sepJoin, hu, hu'], hv'⟩

theorem okTok_append_free (p f : List Char) (hne : p ≠ []) (hh : p.head? ≠ some '_')
    (hp : noUU p) (hf0 : f ≠ []) (hf : '_' ∉ f) : OkTok (p ++ f) where
  ne := by
    cases p with
    | nil => exact absurd rfl hne
    | cons c p' => simp
  headOk := by
    cases p with
    | nil => exact absurd rfl hne
    | cons c p' => simpa using hh
  lastOk := by
    rw [List.getLast?_append, List.getLast?_eq_getLast f hf0, Option.or]
    intro hcontr
    have hmem := List.getLast_mem hf0
    rw [Option.some.injEq] at hcontr
    rw [hcontr] at hmem
    exact hf hmem
  nouu := noUU_append p f hp hf

/-- The generated index name is the separator-join of its five tokens. -/
theorem get_new_index_name_eq_sepJoin (f today now unique : List Char) :
    get_new_index_name f today now unique
      = sepJoin ["activities".toList, "feed_id_".toList ++ f, "date_".toList ++ today,
          "timestamp_".toList ++ now, "batch_id_".toList ++ unique] := by
  simp only [get_new_index_name, sepJoin, List.append_assoc]
  rfl

/-- C8 (amended): for non-empty underscore-free feed ids `f ≠ g` (and the
date, timestamp and batch-id fragments non-empty and underscore-free, as the
code always generates them), the marker `activities__feed_id_<g>__` never
occurs inside an index name generated for `f`; without the underscore-free
restriction on feed ids this fails (see the counterexample). -/
theorem get_new_index_name_marker_unique
    (f g today now unique : List Char)
    (hf0 : f ≠ []) (hf : '_' ∉ f)
    (hg0 : g ≠ []) (hg : '_' ∉ g)
    (ht0 : today ≠ []) (ht : '_' ∉ today)
    (hn0 : now ≠ []) (hn : '_' ∉ now)
    (hu0 : unique ≠ []) (hu : '_' ∉ unique)
    (hne : g ≠ f) :
    ¬ ∃ a b, get_new_index_name f today now unique = a ++ feedMarker g ++ b := by
  rintro ⟨a, b, heq⟩
  have hshape : a ++ feedMarker g ++ b
      = (a ++ "activities".toList)
        ++ '_' :: '_' :: ("feed_id_".toList ++ (g ++ '_' :: '_' :: b)) := by
    simp only [feedMarker, List.append_assoc]
    rfl
  rw [get_new_index_name_eq_sepJoin, hshape] at heq
  have htoks : ∀ tok ∈ (["activities".toList, "feed_id_".toList ++ f,
      "date_".toList ++ today, "timestamp_".toList ++ now,
      "batch_id_".toList ++ unique] : List (List Char)), OkTok tok := by
    intro tok htok
    simp only [List.mem_cons, List.not_mem_nil, or_false] at htok
    rcases htok with rfl | rfl | rfl | rfl | rfl
    · exact ⟨by decide, by decide, by decide, by decide⟩
    · exact okTok_append_free _ f (by decide) (by decide) (by decide) hf0 hf
    · exact okTok_append_free _ today (by decide) (by decide) (by decide) ht0 ht
    · exact okTok_append_free _ now (by decide) (by decide) (by decide) hn0 hn
    · exact okTok_append_free _ unique (by decide) (by decide) (by decide) hu0 hu
  obtain ⟨ts1, tok, ts2, hsplit, hu', hv⟩ := sepJoin_split _ _ _ htoks heq
  rcases ts1 with _ | ⟨s1, ts1⟩
  · -- the marker sits at position 0: its feed id must be f
    simp only [List.nil_append, List.cons.injEq] at hsplit
    obtain ⟨rfl, hts2⟩ := hsplit
    rw [← hts2] at hv
    have hveq : "feed_id_".toList ++ (g ++ '_' :: '_' :: b)
        = "feed_id_".toList ++ (f ++ '_' :: '_' :: sepJoin ["date_".toList ++ today,
            "timestamp_".toList ++ now, "batch_id_".toList ++ unique]) := hv
    have hcan := List.append_cancel_left hveq
    rcases sep_split g f b _ hcan with ⟨hgf, _⟩ | ⟨w, hu2, _⟩ | ⟨w, ht2, _⟩ | ⟨hu2, _⟩
      | ⟨ht2, _⟩
    · exact hne hgf
    · apply hf
      rw [hu2]
      simp
    · apply hg
      rw [ht2]
      simp
    · apply hf
      rw [hu2]
      simp
    · apply hg
      rw [ht2]
      simp
  rcases ts1 with _ | ⟨s2, ts1⟩
  · -- marker aligned with the separator after the feed-id token: v starts 'd'
    simp only [List.cons_append, List.nil_append, List.cons.injEq] at hsplit
    obtain ⟨rfl, rfl, hts2⟩ := hsplit
    rw [← hts2] at hv
    have h1 : ("feed_id_".toList ++ (g ++ '_' :: '_' :: b) : List Char).head? = some 'f' := rfl
    have h2 : (sepJoin ["date_".toList ++ today, "timestamp_".toList ++ now,
        "batch_id_".toList ++ unique] : List Char).head? = some 'd' := rfl
    rw [hv] at h1
    rw [h2] at h1
    simp at h1
  rcases ts1 with _ | ⟨s3, ts1⟩
  · simp only [List.cons_append, List.nil_append, List.cons.injEq] at hsplit
    obtain ⟨rfl, rfl, rfl, hts2⟩ := hsplit
    rw [← hts2] at hv
    have h1 : ("feed_id_".toList ++ (g ++ '_' :: '_' :: b) : List Char).head? = some 'f' := rfl
    have h2 : (sepJoin ["timestamp_".toList ++ now,
        "batch_id_".toList ++ unique] : List Char).head? = some 't' := rfl
    rw [hv] at h1
    rw [h2] at h1
    simp at h1
  rcases ts1 with _ | ⟨s4, ts1⟩
  · simp only [List.cons_append, List.nil_append, List.cons.injEq] at hsplit
    obtain ⟨rfl, rfl, rfl, rfl, hts2⟩ := hsplit
    rw [← hts2] at hv
    have h1 : ("feed_id_".toList ++ (g ++ '_' :: '_' :: b) : List Char).head? = some 'f' := rfl
    have h2 : (sepJoin ["batch_id_".toList ++ unique] : List Char).head? = some 'b' := rfl
    rw [hv] at h1
    rw [h2] at h1
    simp at h1
  rcases ts1 with _ | ⟨s5, ts1⟩
  · simp only [List.cons_append, List.nil_append, List.cons.injEq] at hsplit
    obtain ⟨rfl, rfl, rfl, rfl, rfl, hts2⟩ := hsplit
    rw [← hts2] at hv
    have h1 : ("feed_id_".toList ++ (g ++ '_' :: '_' :: b) : List Char).head? = some 'f' := rfl
    rw [hv] at h1
    simp [sepJoin] at h1
  · simp only [List.cons_append, List.cons.injEq] at hsplit
    exact absurd hsplit.2.2.2.2.2.symm (by simp)

/-- Witness for C8's amended theorem at distinct underscore-free feed ids. -/
theorem get_new_index_name_marker_unique_witness :
    (("f1".toList : List Char) ≠ [] ∧ ("f2".toList : List Char) ≠ []
      ∧ ('_' ∉ ("f1".toList : List Char)) ∧ ('_' ∉ ("f2".toList : List Char))
      ∧ ("f2".toList : List Char) ≠ "f1".toList)
    ∧ ¬ ∃ a b, get_new_index_name ("f1".toList) ("2026-10-12".toList) ("1760227200".toList)
          ("0123456789".toList)
        = a ++ feedMarker ("f2".toList) ++ b :=
  ⟨⟨by decide, by decide, by decide, by decide, by decide⟩,
    get_new_index_name_marker_unique ("f1".toList) ("f2".toList) ("2026-10-12".toList)
      ("1760227200".toList) ("0123456789".toList)
      (by decide) (by decide) (by decide) (by decide) (by decide) (by decide)
      (by decide) (by decide) (by decide) (by decide) (by decide)⟩

/-! ## SigV4 signing (`es_bulk_auth_headers`, `core/app.py`)

The signer is embedded in full: SHA-256 and HMAC-SHA256 over byte lists
(naturals below 256, 32-bit words as naturals reduced mod 2^32), UTF-8
encoding of strings, then the canonical request, string-to-sign and the
key-derivation chain exactly as the Python function builds them.  The only
impure input of the Python function is `datetime.datetime.utcnow()`; it is
modelled as the `World` the function runs in, which also carries the process
randomness (used elsewhere, by `get_new_index_name`) so that determinism with
a fixed clock is a statement about two different worlds. -/

def w32 (n : Nat) : Nat := n % 4294967296

def rotr (k x : Nat) : Nat :=
  w32 ((w32 x >>> k) ||| (w32 x <<< (32 - k)))

def bigSigma0 (x : Nat) : Nat := rotr 2 x ^^^ rotr 13 x ^^^ rotr 22 x
def bigSigma1 (x : Nat) : Nat := rotr 6 x ^^^ rotr 11 x ^^^ rotr 25 x
def smallSigma0 (x : Nat) : Nat := rotr 7 x ^^^ rotr 18 x ^^^ (w32 x >>> 3)
def smallSigma1 (x : Nat) : Nat := rotr 17 x ^^^ rotr 19 x ^^^ (w32 x >>> 10)

def chW (x y z : Nat) : Nat := (x &&& y) ^^^ ((x ^^^ 4294967295) &&& z)
def majW (x y z : Nat) : Nat := (x &&& y) ^^^ (x &&& z) ^^^ (y &&& z)

def shaK : List Nat :=
  [1116352408, 1899447441, 3049323471, 3921009573,
   961987163, 1508970993, 2453635748, 2870763221,
   3624381080, 310598401, 607225278, 1426881987,
   1925078388, 2162078206, 2614888103, 3248222580,
   3835390401, 4022224774, 264347078, 604807628,
   770255983, 1249150122, 1555081692, 1996064986,
   2554220882, 2821834349, 2952996808, 3210313671,
   3336571891, 3584528711, 113926993, 338241895,
   666307205, 773529912, 1294757372, 1396182291,
   1695183700, 1986661051, 2177026350, 2456956037,
   2730485921, 2820302411, 3259730800, 3345764771,
   3516065817, 3600352804, 4094571909, 275423344,
   430227734, 506948616, 659060556, 883997877,
   958139571, 1322822218, 1537002063, 1747873779,
   1955562222, 2024104815, 2227730452, 2361852424,
   2428436474, 2756734187, 3204031479, 3329325298]

def shaInit : List Nat :=
  [1779033703, 3144134277, 1013904242, 2773480762,
   1359893119, 2600822924, 528734635, 1541459225]

/-- Big-endian bytes of `n`, `k` bytes wide. -/
def beBytes (k n : Nat) : List Nat :=
  match k with
  | 0 => []
  | k + 1 => ((n >>> (8 * k)) &&& 255) :: beBytes k n

/-- SHA-256 padding: `0x80`, zeros to 56 mod 64, then the 64-bit bit length. -/
def shaPad (msg : List Nat) : List Nat :=
  msg ++ 128 :: List.replicate ((55 + 64 - (msg.length % 64)) % 64) 0
    ++ beBytes 8 (msg.length * 8)

def chunk64 (l : List Nat) : List (List Nat) :=
  if _h : l = [] then []
  else l.take 64 :: chunk64 (l.drop 64)
  termination_by l.length
  decreasing_by
    simp only [List.length_drop]
    cases l with
    | nil => exact absurd rfl _h
    | cons a t =>
      simp only [List.length_cons]
      omega

def bytesToWords : List Nat → List Nat
  | b3 :: b2 :: b1 :: b0 :: rest =>
      ((b3 <<< 24) + (b2 <<< 16) + (b1 <<< 8) + b0) :: bytesToWords rest
  | _ => []

/-- Extend the 16 block words to the 64-entry message schedule. -/
def shaSchedule (ws : List Nat) : List Nat :=
  (List.range 48).foldl (fun acc _ =>
    let n := acc.length
    acc ++ [w32 (smallSigma1 (acc.getD (n - 2) 0) + acc.getD (n - 7) 0
      + smallSigma0 (acc.getD (n - 15) 0) + acc.getD (n - 16) 0)]) ws

def shaRound (st : List Nat) (wk : Nat × Nat) : List Nat :=
  let a := st.getD 0 0
  let b := st.getD 1 0
  let c := st.getD 2 0
  let d := st.getD 3 0
  let e := st.getD 4 0
  let f := st.getD 5 0
  let g := st.getD 6 0
  let h := st.getD 7 0
  let t1 := w32 (h + bigSigma1 e + chW e f g + wk.2 + wk.1)
  let t2 := w32 (bigSigma0 a + majW a b c)
  [w32 (t1 + t2), a, b, c, w32 (d + t1), e, f, g]

def shaCompress (h : List Nat) (block : List Nat) : List Nat :=
  let final := ((shaSchedule (bytesToWords block)).zip shaK).foldl shaRound h
  (h.zip final).map (fun p => w32 (p.1 + p.2))

/-- SHA-256 of a byte list, as 32 bytes. -/
def sha256 (msg : List Nat) : List Nat :=
  ((chunk64 (shaPad msg)).foldl shaCompress shaInit).foldr
    (fun w acc => beBytes 4 w ++ acc) []

def bytesHex (bs : List Nat) : String :=
  concatStrs (bs.map (fun b => String.mk [hexDigit (b / 16 % 16), hexDigit (b % 16)]))

def sha256Hex (msg : List Nat) : String := bytesHex (sha256 msg)

/-- HMAC-SHA256 (`hmac.new(key, msg, hashlib.sha256).digest()`). -/
def hmacSha256 (key msg : List Nat) : List Nat :=
  let k0 := if 64 < key.length then sha256 key else key
  let kp := k0 ++ List.replicate (64 - k0.length) 0
  sha256 ((kp.map (fun b => b ^^^ 92)) ++ sha256 ((kp.map (fun b => b ^^^ 54)) ++ msg))

/-- UTF-8 encoding of one code point. -/
def utf8Char (c : Char) : List Nat :=
  let n := c.toNat
  if n < 128 then [n]
  else if n < 2048 then [192 + n / 64, 128 + n % 64]
  else if n < 65536 then [224 + n / 4096, 128 + (n / 64) % 64, 128 + n % 64]
  else [240 + n / 262144, 128 + (n / 4096) % 64, 128 + (n / 64) % 64, 128 + n % 64]

def utf8 (s : String) : List Nat :=
  flatten (s.data.map utf8Char)

/-- The impure surroundings of the process: the formatted UTC clock readings
and the `os.urandom` stream. -/
structure World where
  amzdate : String
  datestamp : String
  urandomHex : String

/-- `es_bulk_auth_headers` from `core/app.py`: the two headers `x-amz-date`
and `Authorization`, built from the canonical request (empty query, literal
`content-type;host;x-amz-date` signed headers, `application/x-ndjson`
content type), the string to sign with scope
`date/region/es/aws4_request`, and the `AWS4` key-derivation chain. -/
def es_bulk_auth_headers (w : World) (access_key secret_key region host path : String)
    (payload : List Nat) : List (String × String) :=
  let service := "es"
  let method := "POST"
  let signed_headers := "content-type;host;x-amz-date"
  let algorithm := "AWS4-HMAC-SHA256"
  let credential_scope := w.datestamp ++ "/" ++ region ++ "/" ++ service ++ "/aws4_request"
  let canonical_headers := "content-type:application/x-ndjson\n"
    ++ "host:" ++ host ++ "\n" ++ "x-amz-date:" ++ w.amzdate ++ "\n"
  let payload_hash := sha256Hex payload
  let canonical_request := method ++ "\n" ++ path ++ "\n" ++ "" ++ "\n"
    ++ canonical_headers ++ "\n" ++ signed_headers ++ "\n" ++ payload_hash
  let string_to_sign := algorithm ++ "\n" ++ w.amzdate ++ "\n" ++ credential_scope ++ "\n"
    ++ sha256Hex (utf8 canonical_request)
  let sign := fun (key : List Nat) (msg : String) => hmacSha256 key (utf8 msg)
  let date_key := sign (utf8 ("AWS4" ++ secret_key)) w.datestamp
  let region_key := sign date_key region
  let service_key := sign region_key service
  let request_key := sign service_key "aws4_request"
  let signature := bytesHex (sign request_key string_to_sign)
  [("x-amz-date", w.amzdate),
   ("Authorization", algorithm ++ " Credential=" ++ access_key ++ "/" ++ credential_scope
     ++ ", SignedHeaders=" ++ signed_headers ++ ", Signature=" ++ signature)]

/-- C9: with fixed access key, secret key, region, host, path, payload and a
fixed clock reading, `es_bulk_auth_headers` returns byte-identical
`x-amz-date` and `Authorization` values on any two invocations — whatever
else (such as the randomness stream) differs between the two worlds. -/
theorem es_bulk_auth_headers_deterministic (w₁ w₂ : World)
    (access_key secret_key region host path : String) (payload : List Nat)
    (hdate : w₁.amzdate = w₂.amzdate) (hstamp : w₁.datestamp = w₂.datestamp) :
    es_bulk_auth_headers w₁ access_key secret_key region host path payload
      = es_bulk_auth_headers w₂ access_key secret_key region host path payload := by
  cases w₁ with
  | mk a₁ d₁ u₁ =>
    cases w₂ with
    | mk a₂ d₂ u₂ =>
      simp only at hdate hstamp
      subst hdate hstamp
      rfl

/-- Witness for C9: two worlds that agree on the clock but differ in their
randomness stream produce identical headers. -/
theorem es_bulk_auth_headers_deterministic_witness :
    ((⟨"20261012T000000Z", "20261012", "aabbccddee"⟩ : World).amzdate
        = (⟨"20261012T000000Z", "20261012", "0011223344"⟩ : World).amzdate
      ∧ (⟨"20261012T000000Z", "20261012", "aabbccddee"⟩ : World).datestamp
        = (⟨"20261012T000000Z", "20261012", "0011223344"⟩ : World).datestamp)
    ∧ es_bulk_auth_headers ⟨"20261012T000000Z", "20261012", "aabbccddee"⟩
        "AKID" "SECRET" "us-east-1" "es.example.com" "/_bulk" [1, 2, 3]
      = es_bulk_auth_headers ⟨"20261012T000000Z", "20261012", "0011223344"⟩
        "AKID" "SECRET" "us-east-1" "es.example.com" "/_bulk" [1, 2, 3] :=
  ⟨⟨rfl, rfl⟩,
    es_bulk_auth_headers_deterministic ⟨"20261012T000000Z", "20261012", "aabbccddee"⟩
      ⟨"20261012T000000Z", "20261012", "0011223344"⟩
      "AKID" "SECRET" "us-east-1" "es.example.com" "/_bulk" [1, 2, 3] rfl rfl⟩

end ActivityStream
